import Mathlib

/-!
# A verification development for `internal/log/store.go`

The Go file defines a `store`: an `*os.File` (embedded), a `bufio.Writer`
in front of it and a `uint64` byte counter `size`.  `newStore` sizes the
store from `os.Stat`, `Append` writes an 8-byte big-endian length prefix and
the payload through the buffered writer.

The embedding is shallow: the pieces of the Go standard library that
`Append` runs through (`os.File.Write`, `bufio.Writer.Write`,
`bufio.Writer.Flush`, `binary.Write` for a `uint64`) are written out as pure
functions on an explicit state, with machine integers as `Nat` reduced
modulo `2^64` where Go converts to `uint64` (`int` is taken to be 64 bits
wide).  The operating system is part of the state: the file carries a
script of the outcomes of its coming write calls, so that every statement
below holds for every behaviour of the device.
-/

namespace Log

/-- A byte, as in Go's `byte`. -/
abbrev Byte := UInt8

/-- The errors the model distinguishes.  `ErrClosed` is `os.ErrClosed`,
`ErrShortWrite` is `io.ErrShortWrite`, `EOF` is `io.EOF`; `Errno c` stands
for any error of the operating system (disk full, device error, ...). -/
inductive Error where
  | ErrClosed
  | ErrShortWrite
  | EOF
  | Errno (code : Nat)
  deriving DecidableEq, Repr

/-- What the operating system does with one write call on the file:
it takes all the bytes, or it takes only the first `k` and reports `e`. -/
inductive WriteOutcome where
  | full
  | short (k : Nat) (e : Error)
  deriving DecidableEq, Repr

/-- The state behind an `*os.File` opened for appending.
`data` is the file's contents, `closed` tells whether the handle has been
closed, `statErr` is the error `os.Stat(f.Name())` meets (if any), and
`faults` scripts the outcome of the write calls to come, one entry per
call (no entry left: the call takes all the bytes). -/
structure File where
  data : List Byte
  closed : Bool
  statErr : Option Error
  faults : List WriteOutcome
  deriving DecidableEq, Repr

/-- `os.File.Write` on a handle positioned for append: returns the number of
bytes written and an error, which is non-nil exactly when fewer than
`len(b)` bytes were written.  A closed handle writes nothing and reports
`os.ErrClosed`. -/
def File.Write (f : File) (b : List Byte) : Nat × Option Error × File :=
  if f.closed then (0, some Error.ErrClosed, f)
  else
    match f.faults with
    | [] => (b.length, none, { f with data := f.data ++ b })
    | WriteOutcome.full :: rest =>
        (b.length, none, { f with data := f.data ++ b, faults := rest })
    | WriteOutcome.short k e :: rest =>
        if k < b.length then
          (k, some e, { f with data := f.data ++ b.take k, faults := rest })
        else
          (b.length, none, { f with data := f.data ++ b, faults := rest })

/-- `os.File.Close`: the first call releases the handle, a later one
reports `os.ErrClosed`.  It knows nothing of any buffer in front of it. -/
def File.Close (f : File) : Option Error × File :=
  if f.closed then (some Error.ErrClosed, f)
  else (none, { f with closed := true })

/-- `os.File.ReadAt(b, off)` with `len(b) = len`: the `len` bytes at offset
`off`, or the bytes there are together with `io.EOF` when the file ends
before that; a closed handle reports `os.ErrClosed`. -/
def File.ReadAt (f : File) (len off : Nat) : List Byte × Option Error :=
  if f.closed then ([], some Error.ErrClosed)
  else
    let got := (f.data.drop off).take len
    if got.length < len then (got, some Error.EOF) else (got, none)

/-- `os.Stat(f.Name())` followed by `FileInfo.Size()`: the byte length of
the file, or the error of the stat call.  The name is taken to resolve to
the file behind the handle. -/
def File.Stat (f : File) : Except Error Nat :=
  match f.statErr with
  | some e => Except.error e
  | none => Except.ok f.data.length

/-- Go's `defaultBufSize` of package `bufio`. -/
def defaultBufSize : Nat := 4096

/-- A `bufio.Writer`.  `buf` holds the buffered bytes `b.buf[0:b.n]`,
`cap` is `len(b.buf)`, `err` is the sticky error.  The underlying writer
`b.wr` is the store's file and is passed along explicitly. -/
structure Writer where
  err : Option Error
  buf : List Byte
  cap : Nat
  deriving DecidableEq, Repr

/-- `bufio.NewWriter`. -/
def NewWriter : Writer := { err := none, buf := [], cap := defaultBufSize }

/-- `b.Buffered()`, which is `b.n`. -/
def Writer.Buffered (b : Writer) : Nat := b.buf.length

/-- `b.Available()`, which is `len(b.buf) - b.n`. -/
def Writer.Available (b : Writer) : Nat := b.cap - b.buf.length

/-- `bufio.Writer.Flush`. -/
def Writer.Flush (b : Writer) (f : File) : Option Error × Writer × File :=
  match b.err with
  | some e => (some e, b, f)
  | none =>
    if b.Buffered = 0 then (none, b, f)
    else
      match f.Write b.buf with
      | (n, err, f1) =>
        let err1 := if n < b.Buffered ∧ err = none then some Error.ErrShortWrite else err
        match err1 with
        | some e => (some e, { b with buf := b.buf.drop n, err := some e }, f1)
        | none => (none, { b with buf := [] }, f1)

/-- The `for` loop of `bufio.Writer.Write`, with the number of iterations
bounded by `fuel`; `none` when the bound is hit before the loop condition
turns false.  The state is the writer, the file, what is left of `p`, and
the count `nn`. -/
def Writer.writeLoop : Nat → Writer → File → List Byte → Nat →
    Option (Writer × File × List Byte × Nat)
  | 0, _, _, _, _ => none
  | fuel + 1, b, f, p, nn =>
    if p.length > b.Available ∧ b.err = none then
      if b.Buffered = 0 then
        match f.Write p with
        | (n, e, f1) =>
          Writer.writeLoop fuel { b with err := e } f1 (p.drop n) (nn + n)
      else
        let n := min b.Available p.length
        let b1 := { b with buf := b.buf ++ p.take n }
        match b1.Flush f with
        | (_, b2, f1) => Writer.writeLoop fuel b2 f1 (p.drop n) (nn + n)
    else some (b, f, p, nn)

/-- The bound on the loop of `bufio.Writer.Write` used by the model. -/
def writeFuel : Nat := 3

/-- `bufio.Writer.Write`: returns `(nn, err)` and the new writer and file. -/
def Writer.Write (b : Writer) (f : File) (p : List Byte) :
    Option (Nat × Option Error × Writer × File) :=
  match Writer.writeLoop writeFuel b f p 0 with
  | none => none
  | some (b1, f1, p1, nn) =>
    match b1.err with
    | some e => some (nn, some e, b1, f1)
    | none =>
      let n := min b1.Available p1.length
      some (nn + n, none, { b1 with buf := b1.buf ++ p1.take n }, f1)

/-- The byte `byte(v >> s)`. -/
def byteAt (v s : Nat) : Byte := UInt8.ofNat ((v >>> s) % 256)

/-- `binary.BigEndian.PutUint64`: the 8 bytes of `v`, most significant
first. -/
def PutUint64 (v : Nat) : List Byte :=
  [byteAt v 56, byteAt v 48, byteAt v 40, byteAt v 32,
   byteAt v 24, byteAt v 16, byteAt v 8, byteAt v 0]

/-- `binary.BigEndian.Uint64`: the number eight bytes stand for. -/
def Uint64 (bs : List Byte) : Nat :=
  bs.foldl (fun acc x => acc * 256 + x.toNat) 0

/-- `binary.Write(w, encoding, v)` for a `uint64` value `v`, where the
variable `encoding` is `binary.BigEndian`: encodes `v` in 8 bytes and hands
them to `w.Write`, returning its error. -/
def binaryWrite (b : Writer) (f : File) (v : Nat) :
    Option (Option Error × Writer × File) :=
  match b.Write f (PutUint64 v) with
  | none => none
  | some (_, err, b1, f1) => some (err, b1, f1)

/-- The constant `lenWidth`. -/
def lenWidth : Nat := 8

/-- `2^64`, the modulus of `uint64`. -/
def u64 : Nat := 2 ^ 64

/-- The struct `store`: the embedded file, the buffered writer, the size.
The mutex is not modelled: calls are taken one at a time. -/
structure store where
  File : File
  buf : Writer
  size : Nat
  deriving DecidableEq, Repr

/-- The function `newStore`. -/
def newStore (f : File) : Except Error store :=
  match f.Stat with
  | Except.error err => Except.error err
  | Except.ok fileSize =>
    let size := fileSize % u64
    Except.ok { File := f, size := size, buf := NewWriter }

/-- The method `store.Append`: returns `(n, pos, err)` and the new state;
`none` only if the loop bound of the writer model is hit. -/
def store.Append (s : store) (p : List Byte) :
    Option ((Nat × Nat × Option Error) × store) :=
  let pos := s.size
  match binaryWrite s.buf s.File (p.length % u64) with
  | none => none
  | some (some err, b1, f1) => some ((0, 0, some err), { s with buf := b1, File := f1 })
  | some (none, b1, f1) =>
    match b1.Write f1 p with
    | none => none
    | some (_, some err, b2, f2) => some ((0, 0, some err), { s with buf := b2, File := f2 })
    | some (w, none, b2, f2) =>
      let w1 := w + lenWidth
      some ((w1 % u64, pos, none),
        { File := f2, buf := b2, size := (s.size + w1 % u64) % u64 })

/-- The method `Close` of a `store`.  The struct declares none of its own,
so the call goes to the embedded `*os.File`. -/
def store.Close (s : store) : Option Error × store :=
  match s.File.Close with
  | (e, f1) => (e, { s with File := f1 })

/-- An empty file that can be stat'ed and meets no write fault. -/
def emptyFile : File := { data := [], closed := false, statErr := none, faults := [] }

/-- The bytes a reader sees once the buffer is flushed: the file's bytes
followed by the buffered ones. -/
def stream (s : store) : List Byte := s.File.data ++ s.buf.buf

/-- A record as the spec frames it: the 8-byte big-endian length, then the
payload. -/
def frame (p : List Byte) : List Byte := PutUint64 p.length ++ p

/-- A series of `Append` calls, one per payload, each on the state the
previous one left; the results are listed in call order. -/
def appends : store → List (List Byte) → Option (List (Nat × Nat × Option Error) × store)
  | s, [] => some ([], s)
  | s, p :: ps =>
    match s.Append p with
    | none => none
    | some (r, s1) =>
      match appends s1 ps with
      | none => none
      | some (rs, s2) => some (r :: rs, s2)

/-- Modelled from the spec: `Read(position)` is not in the source file (the
struct only inherits `os.File.Read`, which has another signature).  As in
section 4.1: the buffered bytes are first made visible by a flush, then 8
bytes are read at `pos` as a big-endian length `n`, then the next `n` bytes
are read and returned; `size` is not touched. -/
def store.Read (s : store) (pos : Nat) : (List Byte × Option Error) × store :=
  match s.buf.Flush s.File with
  | (some e, b1, f1) => (([], some e), { s with buf := b1, File := f1 })
  | (none, b1, f1) =>
    let s1 := { s with buf := b1, File := f1 }
    match f1.ReadAt lenWidth pos with
    | (_, some e) => (([], some e), s1)
    | (hdr, none) =>
      match f1.ReadAt (Uint64 hdr) (pos + lenWidth) with
      | (_, some e) => (([], some e), s1)
      | (body, none) => ((body, none), s1)

/-- The writer and file `(b1, f1)` come from `(b, f)` by adding the bytes
`t` at the end of the stream, leaving capacity and handle as they were. -/
def Grows (b : Writer) (f : File) (b1 : Writer) (f1 : File) (t : List Byte) : Prop :=
  f1.data ++ b1.buf = f.data ++ b.buf ++ t ∧ b1.cap = b.cap ∧ f1.closed = f.closed


/-- The results a run of successful appends must give: the record of
payload `p` starts where the previous one ended and counts `8 + len(p)`
bytes. -/
def offsets : Nat → List (List Byte) → List (Nat × Nat × Option Error)
  | _, [] => []
  | start, p :: ps => (8 + p.length, start, none) :: offsets (start + (8 + p.length)) ps


/-- The store `newStore` returns for `emptyFile`. -/
def store0 : store := { File := emptyFile, buf := NewWriter, size := 0 }

/-- The state after `Append([1,2,3])` on `store0`. -/
def store1 : store :=
  { File := emptyFile,
    buf := { err := none, buf := [0, 0, 0, 0, 0, 0, 0, 3, 1, 2, 3], cap := defaultBufSize },
    size := 11 }

/-- The state after `Append([])` on `store1`. -/
def store2 : store :=
  { File := emptyFile,
    buf := { err := none,
             buf := [0, 0, 0, 0, 0, 0, 0, 3, 1, 2, 3, 0, 0, 0, 0, 0, 0, 0, 0],
             cap := defaultBufSize },
    size := 19 }

/-- The record of payload `p` sits in `data` at byte offset `pos`. -/
def recordAt (data : List Byte) (pos : Nat) (p : List Byte) : Prop :=
  ∃ pre post, data = pre ++ frame p ++ post ∧ pre.length = pos

/-- A file like `emptyFile` whose first write takes 8 bytes and then fails
with error 28 (no space left on the device). -/
def faultyFile : File :=
  { data := [], closed := false, statErr := none,
    faults := [WriteOutcome.short 8 (Error.Errno 28)] }

/-- A payload of 4089 zero bytes: with its length prefix, one byte more than
the buffer holds. -/
def bigPayload : List Byte := List.replicate 4089 0

/-- The store `newStore` returns for `faultyFile`. -/
def storeF0 : store := { File := faultyFile, buf := NewWriter, size := 0 }

/-- The state after `Append(bigPayload)` has failed on `storeF0`: the length
prefix is in the file, 4088 payload bytes are in the buffer, the writer
holds the error. -/
def storeF1 : store :=
  { File := { data := PutUint64 4089, closed := false, statErr := none, faults := [] },
    buf := { err := some (Error.Errno 28), buf := List.replicate 4088 0, cap := defaultBufSize },
    size := 0 }

/-- The file `emptyFile` once its handle is closed. -/
def closedFile : File := { data := [], closed := true, statErr := none, faults := [] }

/-- The state after `Close` on `store0`. -/
def storeC0 : store := { File := closedFile, buf := NewWriter, size := 0 }

/-- The state after `Append([1,2,3])` on `storeC0`. -/
def storeC1 : store := { store1 with File := closedFile }

/-- The method `ReadAt` of a `store`: `ReadAt(b, off)` with `len(b) = len`.
The struct declares none of its own, so the call goes to the embedded
`*os.File`; the result is the bytes read, `b[:n]`, and the error. -/
def store.ReadAt (s : store) (len off : Nat) : List Byte × Option Error :=
  s.File.ReadAt len off

/-- The state after `Append(bigPayload)` has failed on `storeC1`: the prefix
and 4077 payload bytes have joined the buffer, the writer holds the
closed-file error. -/
def storeC2 : store :=
  { File := closedFile,
    buf := { err := some Error.ErrClosed,
             buf := store1.buf.buf ++ PutUint64 4089 ++ List.replicate 4077 0,
             cap := defaultBufSize },
    size := 11 }

/-- A payload of 8185 zero bytes: on an empty buffer its record goes to the
file whole, in two write calls. -/
def hugePayload : List Byte := List.replicate 8185 0

/-- The state after `Append([4,5,6])` on the closed store `storeC0`. -/
def storeC1b : store :=
  { File := closedFile,
    buf := { err := none, buf := [0, 0, 0, 0, 0, 0, 0, 3, 4, 5, 6], cap := defaultBufSize },
    size := 11 }

/-- The state after `Append(bigPayload)` on `store0`: the flush forced by
the payload has put the prefix and 4088 payload bytes in the file, the last
payload byte is in the buffer. -/
def storeB1 : store :=
  { File := { data := PutUint64 4089 ++ List.replicate 4088 0, closed := false,
              statErr := none, faults := [] },
    buf := { err := none, buf := [0], cap := defaultBufSize },
    size := 4097 }

/-! # Lemmas on the library model -/

/-! ## The file -/

theorem File.Write_closed (f : File) (b : List Byte) (h : f.closed = true) :
    f.Write b = (0, some Error.ErrClosed, f) := by
  simp [File.Write, h]

theorem File.Write_appends (f : File) (b : List Byte) :
    (f.Write b).1 ≤ b.length ∧
    (f.Write b).2.2.data = f.data ++ b.take (f.Write b).1 ∧
    (f.Write b).2.2.closed = f.closed ∧
    (f.Write b).2.2.statErr = f.statErr ∧
    ((f.Write b).2.1 = none → (f.Write b).1 = b.length) := by
  unfold File.Write
  split
  · simp
  · split
    · simp
    · simp
    · split
      · rename_i h
        simp [Nat.le_of_lt h]
      · simp

/-! ## The buffered writer -/

theorem Writer.Flush_spec (b : Writer) (f : File) :
    (b.Flush f).2.2.data ++ (b.Flush f).2.1.buf = f.data ++ b.buf ∧
    (b.Flush f).2.1.cap = b.cap ∧
    (b.Flush f).2.2.closed = f.closed ∧
    (b.Flush f).2.1.err = (b.Flush f).1 ∧
    ((b.Flush f).1 = none → (b.Flush f).2.1.buf = [] ∧ b.err = none) := by
  rcases hb : b.err with _ | e
  · by_cases h0 : b.Buffered = 0
    · have hnil : b.buf = [] := List.length_eq_zero.mp h0
      simp [Writer.Flush, hb, h0, hnil]
    · have hne : ¬ b.buf = [] := fun h => h0 (by simp [Writer.Buffered, h])
      obtain ⟨h1, h2, h3, _, h5⟩ := File.Write_appends f b.buf
      rcases hfw : f.Write b.buf with ⟨n, err, f1⟩
      rw [hfw] at h1 h2 h3 h5
      simp only at h1 h2 h3 h5
      rcases err with _ | e
      · have hn : n = b.buf.length := h5 rfl
        simp [Writer.Flush, hb, hfw, hn, Writer.Buffered, h2, h3, hne]
      · simp [Writer.Flush, hb, hfw, h2, h3, hne, Writer.Buffered]
  · simp [Writer.Flush, hb]

theorem Grows.refl (b : Writer) (f : File) : Grows b f b f [] := by
  simp [Grows]

theorem Grows.trans {b f b1 f1 b2 f2 t u} (h1 : Grows b f b1 f1 t) (h2 : Grows b1 f1 b2 f2 u) :
    Grows b f b2 f2 (t ++ u) := by
  obtain ⟨a1, a2, a3⟩ := h1
  obtain ⟨c1, c2, c3⟩ := h2
  refine ⟨?_, c2.trans a2, c3.trans a3⟩
  rw [c1, a1, List.append_assoc]

theorem Writer.writeLoop_done (fuel : Nat) (b : Writer) (f : File) (p : List Byte) (nn : Nat)
    (h : ¬ (p.length > b.Available ∧ b.err = none)) :
    Writer.writeLoop (fuel + 1) b f p nn = some (b, f, p, nn) := by
  simp only [Writer.writeLoop, if_neg h]

theorem Writer.writeLoop_spec (fuel : Nat) : ∀ (b : Writer) (f : File) (p : List Byte) (nn : Nat)
    (b1 : Writer) (f1 : File) (p1 : List Byte) (nn1 : Nat),
    Writer.writeLoop fuel b f p nn = some (b1, f1, p1, nn1) →
    ∃ k, k ≤ p.length ∧ p1 = p.drop k ∧ nn1 = nn + k ∧ Grows b f b1 f1 (p.take k) ∧
      ¬ (p1.length > b1.Available ∧ b1.err = none) ∧
      (b.err ≠ none → b1 = b ∧ f1 = f ∧ k = 0) := by
  induction fuel with
  | zero => intro b f p nn b1 f1 p1 nn1 h; simp [Writer.writeLoop] at h
  | succ fuel ih =>
    intro b f p nn b1 f1 p1 nn1 h
    by_cases hg : p.length > b.Available ∧ b.err = none
    · have herr : b.err = none := hg.2
      simp only [Writer.writeLoop, if_pos hg] at h
      by_cases h0 : b.Buffered = 0
      · have hnil : b.buf = [] := List.length_eq_zero.mp h0
        simp only [if_pos h0] at h
        obtain ⟨w1, w2, w3, _, _⟩ := File.Write_appends f p
        rcases hfw : f.Write p with ⟨n, e, f2⟩
        rw [hfw] at w1 w2 w3 h
        simp only at w1 w2 w3 h
        obtain ⟨k, hk, hp1, hnn, hgr, hdone, _⟩ := ih _ _ _ _ _ _ _ _ h
        rw [List.length_drop] at hk
        refine ⟨n + k, by omega, ?_, by omega, ?_, hdone, fun hne => absurd herr hne⟩
        · rw [hp1, List.drop_drop, Nat.add_comm]
        · have hstep : Grows b f { b with err := e } f2 (p.take n) := by
            refine ⟨?_, rfl, w3⟩
            simp [w2, hnil]
          have := hstep.trans hgr
          rwa [← List.take_add] at this
      · simp only [if_neg h0] at h
        obtain ⟨g1, g2, g3, _, _⟩ :=
          Writer.Flush_spec { b with buf := b.buf ++ p.take (min b.Available p.length) } f
        rcases hfl : Writer.Flush { b with buf := b.buf ++ p.take (min b.Available p.length) } f
          with ⟨e, b2, f2⟩
        rw [hfl] at g1 g2 g3 h
        simp only at g1 g2 g3 h
        obtain ⟨k, hk, hp1, hnn, hgr, hdone, _⟩ := ih _ _ _ _ _ _ _ _ h
        rw [List.length_drop] at hk
        have hmin : min b.Available p.length ≤ p.length := Nat.min_le_right _ _
        refine ⟨min b.Available p.length + k, by omega, ?_, by omega, ?_,
          hdone, fun hne => absurd herr hne⟩
        · rw [hp1, List.drop_drop, Nat.add_comm]
        · have hstep : Grows b f b2 f2 (p.take (min b.Available p.length)) := by
            refine ⟨?_, g2, g3⟩
            rw [g1, List.append_assoc]
          have := hstep.trans hgr
          rwa [← List.take_add] at this
    · rw [Writer.writeLoop_done fuel b f p nn hg] at h
      simp only [Option.some.injEq, Prod.mk.injEq] at h
      obtain ⟨rfl, rfl, rfl, rfl⟩ := h
      exact ⟨0, Nat.zero_le _, by simp, by simp, by simpa using Grows.refl b f, hg,
        fun _ => ⟨rfl, rfl, rfl⟩⟩

theorem Writer.writeLoop_empty (fuel : Nat) (b : Writer) (f : File) (p : List Byte) (nn : Nat)
    (h0 : b.Buffered = 0) : ∃ r, Writer.writeLoop (fuel + 2) b f p nn = some r := by
  by_cases hg : p.length > b.Available ∧ b.err = none
  · simp only [Writer.writeLoop, if_pos hg, if_pos h0]
    obtain ⟨_, _, _, _, w5⟩ := File.Write_appends f p
    rcases hfw : f.Write p with ⟨n, e, f2⟩
    rw [hfw] at w5
    simp only at w5
    refine ⟨_, if_neg ?_⟩
    rintro ⟨hlen, herr⟩
    simp only at herr
    have hn := w5 herr
    simp [hn] at hlen
  · exact ⟨_, Writer.writeLoop_done _ b f p nn hg⟩

theorem Writer.writeLoop_total (fuel : Nat) (b : Writer) (f : File) (p : List Byte) (nn : Nat) :
    ∃ r, Writer.writeLoop (fuel + 3) b f p nn = some r := by
  by_cases hg : p.length > b.Available ∧ b.err = none
  · by_cases h0 : b.Buffered = 0
    · exact Writer.writeLoop_empty (fuel + 1) b f p nn h0
    · rw [Writer.writeLoop]
      simp only [if_pos hg, if_neg h0]
      obtain ⟨_, _, _, g4, g5⟩ :=
        Writer.Flush_spec { b with buf := b.buf ++ p.take (min b.Available p.length) } f
      rcases hfl : Writer.Flush { b with buf := b.buf ++ p.take (min b.Available p.length) } f
        with ⟨e, b2, f2⟩
      rw [hfl] at g4 g5
      simp only at g4 g5
      rcases e with _ | e
      · exact Writer.writeLoop_empty fuel b2 f2 _ _ (by simp [Writer.Buffered, (g5 rfl).1])
      · exact ⟨_, Writer.writeLoop_done _ _ _ _ _ (by simp [g4])⟩
  · exact ⟨_, Writer.writeLoop_done _ b f p nn hg⟩

theorem Writer.Write_total (b : Writer) (f : File) (p : List Byte) :
    ∃ r, b.Write f p = some r := by
  obtain ⟨⟨b1, f1, p1, nn⟩, hr⟩ := Writer.writeLoop_total 0 b f p 0
  unfold Writer.Write writeFuel
  rw [hr]
  rcases he : b1.err with _ | e <;> simp [he]

theorem Writer.Write_spec (b : Writer) (f : File) (p : List Byte) (nn : Nat) (e : Option Error)
    (b1 : Writer) (f1 : File) (h : b.Write f p = some (nn, e, b1, f1)) :
    nn ≤ p.length ∧ Grows b f b1 f1 (p.take nn) ∧ b1.err = e ∧
    (e = none → nn = p.length ∧ b.err = none) ∧
    (b.err ≠ none → e = b.err ∧ b1 = b ∧ f1 = f ∧ nn = 0) := by
  unfold Writer.Write at h
  rcases hl : Writer.writeLoop writeFuel b f p 0 with _ | ⟨b2, f2, p2, nn2⟩
  · simp [hl] at h
  · obtain ⟨k, hk, hp2, hnn, hgr, hdone, hst⟩ := Writer.writeLoop_spec _ _ _ _ _ _ _ _ _ hl
    rw [hl] at h
    simp only [Nat.zero_add] at hnn
    subst hnn
    rcases he2 : b2.err with _ | e2
    · simp only [he2, Option.some.injEq, Prod.mk.injEq] at h
      obtain ⟨h1, h2, h3, h4⟩ := h
      have hle : p2.length ≤ b2.Available := by
        by_contra hc
        exact hdone ⟨by omega, he2⟩
      have hmin : min b2.Available p2.length = p2.length := Nat.min_eq_right hle
      have hlen2 : p2.length = p.length - nn2 := by rw [hp2, List.length_drop]
      have hnn' : nn = p.length := by omega
      have hbe : b.err = none := by
        by_contra hc
        have := (hst hc).1
        rw [this] at he2
        exact hc he2
      subst h2 h3 h4
      refine ⟨by omega, ?_, rfl, fun _ => ⟨hnn', hbe⟩, fun hc => absurd hbe hc⟩
      have hstep : Grows b2 f2
          { err := none, buf := b2.buf ++ p2.take (min b2.Available p2.length), cap := b2.cap } f2
          p2 := by
        simp [Grows, hmin]
      have := hgr.trans hstep
      rw [hp2, List.take_append_drop] at this
      rw [hnn', List.take_length]
      rw [hp2]
      exact this
    · simp only [he2, Option.some.injEq, Prod.mk.injEq] at h
      obtain ⟨h1, h2, h3, h4⟩ := h
      subst h1 h2 h3 h4
      refine ⟨hk, hgr, he2, fun hc => by simp at hc, fun hc => ?_⟩
      obtain ⟨a1, a2, a3⟩ := hst hc
      subst a1 a2 a3
      exact ⟨he2.symm, rfl, rfl, rfl⟩

/-! ## Byte order -/

theorem byteAt_toNat (v s : Nat) : (byteAt v s).toNat = (v / 2 ^ s) % 256 := by
  simp [byteAt, UInt8.toNat, UInt8.ofNat, Nat.shiftRight_eq_div_pow, Fin.ofNat]

theorem PutUint64_mod (v : Nat) : PutUint64 (v % u64) = PutUint64 v := by
  have h : ∀ s, s ≤ 56 → byteAt (v % u64) s = byteAt v s := by
    intro s hs
    have hpow : u64 = 2 ^ s * 2 ^ (64 - s) := by
      rw [← Nat.pow_add, u64]
      congr 1
      omega
    have hdvd : 256 ∣ 2 ^ (64 - s) := by
      have : 64 - s = 8 + (56 - s) := by omega
      rw [this, Nat.pow_add]
      exact Dvd.intro _ rfl
    simp only [byteAt, Nat.shiftRight_eq_div_pow]
    congr 1
    rw [hpow, Nat.mod_mul_right_div_self, Nat.mod_mod_of_dvd _ hdvd]
  simp only [PutUint64]
  rw [h 56 (by omega), h 48 (by omega), h 40 (by omega), h 32 (by omega), h 24 (by omega),
    h 16 (by omega), h 8 (by omega), h 0 (by omega)]

theorem Uint64_PutUint64 (v : Nat) : Uint64 (PutUint64 v) = v % u64 := by
  simp only [Uint64, PutUint64, List.foldl, byteAt_toNat, u64]
  norm_num
  omega

/-! ## Append -/

theorem store.Append_total (s : store) (p : List Byte) : ∃ r, s.Append p = some r := by
  unfold store.Append binaryWrite
  obtain ⟨⟨n1, e1, b1, f1⟩, h1⟩ := Writer.Write_total s.buf s.File (PutUint64 (p.length % u64))
  rw [h1]
  rcases e1 with _ | e1
  · obtain ⟨⟨n2, e2, b2, f2⟩, h2⟩ := Writer.Write_total b1 f1 p
    simp only [h2]
    rcases e2 with _ | e2 <;> simp
  · simp

theorem PutUint64_length (v : Nat) : (PutUint64 v).length = 8 := rfl

theorem store.Append_ok (s : store) (p : List Byte) (n pos : Nat) (s1 : store)
    (h : s.Append p = some ((n, pos, none), s1)) :
    n = (p.length + 8) % u64 ∧ pos = s.size ∧
    s1.size = (s.size + (p.length + 8) % u64) % u64 ∧
    stream s1 = stream s ++ (PutUint64 (p.length % u64) ++ p) ∧
    s.buf.err = none ∧ s1.buf.err = none ∧ s1.buf.cap = s.buf.cap ∧
    s1.File.closed = s.File.closed := by
  unfold store.Append binaryWrite at h
  rcases h1 : Writer.Write s.buf s.File (PutUint64 (p.length % u64)) with _ | ⟨n1, e1, b1, f1⟩
  · simp [h1] at h
  · rw [h1] at h
    obtain ⟨_, g1, ge1, gok1, _⟩ := Writer.Write_spec _ _ _ _ _ _ _ h1
    rcases e1 with _ | e1
    · obtain ⟨hn1, hserr⟩ := gok1 rfl
      rcases h2 : Writer.Write b1 f1 p with _ | ⟨n2, e2, b2, f2⟩
      · simp [h2] at h
      · obtain ⟨_, g2, ge2, gok2, _⟩ := Writer.Write_spec _ _ _ _ _ _ _ h2
        rcases e2 with _ | e2
        · obtain ⟨hn2, _⟩ := gok2 rfl
          simp only [h2, Option.some.injEq, Prod.mk.injEq] at h
          obtain ⟨⟨hn, hpos, _⟩, hs1⟩ := h
          subst hs1
          have hg := g1.trans g2
          rw [hn1, hn2, List.take_length, List.take_length] at hg
          obtain ⟨hg1, hg2, hg3⟩ := hg
          refine ⟨?_, hpos.symm, ?_, ?_, hserr, ge2, hg2, hg3⟩
          · rw [← hn, hn2, lenWidth]
          · simp only [hn2, lenWidth]
          · simp only [stream]
            rw [hg1, List.append_assoc]
        · simp [h2] at h
    · simp at h

theorem store.Append_err (s : store) (p : List Byte) (n pos : Nat) (e : Error) (s1 : store)
    (h : s.Append p = some ((n, pos, some e), s1)) :
    n = 0 ∧ pos = 0 ∧ s1.size = s.size ∧ s1.buf.err = some e ∧
    (∃ t, stream s1 = stream s ++ t ∧ t <+: PutUint64 (p.length % u64) ++ p) ∧
    s1.buf.cap = s.buf.cap ∧ s1.File.closed = s.File.closed := by
  unfold store.Append binaryWrite at h
  rcases h1 : Writer.Write s.buf s.File (PutUint64 (p.length % u64)) with _ | ⟨n1, e1, b1, f1⟩
  · simp [h1] at h
  · rw [h1] at h
    obtain ⟨_, g1, ge1, gok1, _⟩ := Writer.Write_spec _ _ _ _ _ _ _ h1
    rcases e1 with _ | e1
    · obtain ⟨hn1, hserr⟩ := gok1 rfl
      rcases h2 : Writer.Write b1 f1 p with _ | ⟨n2, e2, b2, f2⟩
      · simp [h2] at h
      · obtain ⟨_, g2, ge2, gok2, _⟩ := Writer.Write_spec _ _ _ _ _ _ _ h2
        rcases e2 with _ | e2
        · simp [h2] at h
        · simp only [h2, Option.some.injEq, Prod.mk.injEq] at h
          obtain ⟨⟨hn, hpos, he⟩, hs1⟩ := h
          subst hs1 he
          have hg := g1.trans g2
          rw [hn1, List.take_length] at hg
          obtain ⟨hg1, hg2, hg3⟩ := hg
          refine ⟨hn.symm, hpos.symm, rfl, ge2,
            ⟨PutUint64 (p.length % u64) ++ List.take n2 p, ?_, ?_⟩, hg2, hg3⟩
          · simp only [stream]
            exact hg1
          · exact (List.prefix_append_right_inj _).mpr (List.take_prefix _ _)
    · simp only [Option.some.injEq, Prod.mk.injEq] at h
      obtain ⟨⟨hn, hpos, he⟩, hs1⟩ := h
      subst hs1 he
      obtain ⟨hg1, hg2, hg3⟩ := g1
      refine ⟨hn.symm, hpos.symm, rfl, ge1,
        ⟨List.take n1 (PutUint64 (p.length % u64)), ?_, ?_⟩, hg2, hg3⟩
      · simp only [stream]
        exact hg1
      · exact (List.take_prefix _ _).trans (List.prefix_append _ _)

theorem store.Append_sticky (s : store) (p : List Byte) (e : Error) (h : s.buf.err = some e) :
    s.Append p = some ((0, 0, some e), s) := by
  obtain ⟨⟨n1, e1, b1, f1⟩, h1⟩ := Writer.Write_total s.buf s.File (PutUint64 (p.length % u64))
  obtain ⟨_, _, _, _, hst⟩ := Writer.Write_spec _ _ _ _ _ _ _ h1
  obtain ⟨a1, a2, a3, a4⟩ := hst (by simp [h])
  subst a1 a2 a3 a4
  unfold store.Append binaryWrite
  rw [h1, h]

/-! ## Series of appends -/

theorem appends_cons (s : store) (p : List Byte) (ps : List (List Byte))
    (rs : List (Nat × Nat × Option Error)) (s2 : store)
    (h : appends s (p :: ps) = some (rs, s2)) :
    ∃ r s1 rs1, s.Append p = some (r, s1) ∧ appends s1 ps = some (rs1, s2) ∧ rs = r :: rs1 := by
  simp only [appends] at h
  rcases h1 : s.Append p with _ | ⟨r, s1⟩
  · simp [h1] at h
  · rcases h2 : appends s1 ps with _ | ⟨rs1, s3⟩
    · simp [h1, h2] at h
    · simp only [h1, h2, Option.some.injEq, Prod.mk.injEq] at h
      exact ⟨r, s1, rs1, rfl, by rw [h2, h.2], h.1.symm⟩

theorem appends_total (ps : List (List Byte)) : ∀ s : store, ∃ r, appends s ps = some r := by
  induction ps with
  | nil => intro s; exact ⟨_, rfl⟩
  | cons p ps ih =>
    intro s
    obtain ⟨⟨r, s1⟩, h1⟩ := store.Append_total s p
    obtain ⟨⟨rs, s2⟩, h2⟩ := ih s1
    exact ⟨(r :: rs, s2), by simp only [appends, h1, h2]⟩

theorem appends_length (ps : List (List Byte)) : ∀ (s : store) rs s2,
    appends s ps = some (rs, s2) → rs.length = ps.length := by
  induction ps with
  | nil =>
    intro s rs s2 h
    simp only [appends, Option.some.injEq, Prod.mk.injEq] at h
    simp [← h.1]
  | cons p ps ih =>
    intro s rs s2 h
    obtain ⟨r, s1, rs1, _, h2, rfl⟩ := appends_cons s p ps rs s2 h
    simp [ih s1 rs1 s2 h2]

theorem appends_ok (ps : List (List Byte)) : ∀ (s : store) rs s2,
    appends s ps = some (rs, s2) → (∀ r ∈ rs, r.2.2 = none) →
    s.size + (ps.map (fun p => 8 + p.length)).sum < u64 →
    s2.size = s.size + (ps.map (fun p => 8 + p.length)).sum ∧
    rs = offsets s.size ps ∧
    stream s2 = stream s ++ (ps.map frame).flatten ∧
    (s.buf.err = none → s2.buf.err = none) ∧
    s2.buf.cap = s.buf.cap ∧ s2.File.closed = s.File.closed := by
  induction ps with
  | nil =>
    intro s rs s2 h _ _
    simp only [appends, Option.some.injEq, Prod.mk.injEq] at h
    obtain ⟨rfl, rfl⟩ := h
    simp [offsets]
  | cons p ps ih =>
    intro s rs s2 h hok hb
    obtain ⟨⟨n, pos, e⟩, s1, rs1, h1, h2, rfl⟩ := appends_cons s p ps rs s2 h
    have he : e = none := hok (n, pos, e) (List.mem_cons_self _ _)
    subst he
    obtain ⟨a1, a2, a3, a4, a5, a6, a7, a8⟩ := store.Append_ok s p n pos s1 h1
    simp only [List.map_cons, List.sum_cons] at hb ⊢
    have hm : (p.length + 8) % u64 = 8 + p.length := by
      rw [Nat.mod_eq_of_lt (by omega)]; omega
    rw [hm] at a1 a3
    have hs1 : s1.size = s.size + (8 + p.length) := by
      rw [a3, Nat.mod_eq_of_lt (by omega)]
    obtain ⟨i1, i2, i3, i4, i5, i6⟩ := ih s1 rs1 s2 h2
      (fun r hr => hok r (List.mem_cons_of_mem _ hr)) (by rw [hs1]; omega)
    refine ⟨by rw [i1, hs1]; omega, ?_, ?_, fun _ => i4 a6, i5.trans a7, i6.trans a8⟩
    · rw [offsets, i2, hs1, a1, a2]
    · rw [i3, a4, PutUint64_mod, List.flatten_cons, frame, List.append_assoc]

theorem appends_stream (ps : List (List Byte)) : ∀ (s : store) rs s2,
    appends s ps = some (rs, s2) → (∀ r ∈ rs, r.2.2 = none) →
    stream s2 = stream s ++ (ps.map frame).flatten := by
  induction ps with
  | nil =>
    intro s rs s2 h _
    simp only [appends, Option.some.injEq, Prod.mk.injEq] at h
    obtain ⟨rfl, rfl⟩ := h
    simp
  | cons p ps ih =>
    intro s rs s2 h hok
    obtain ⟨⟨n, pos, e⟩, s1, rs1, h1, h2, rfl⟩ := appends_cons s p ps rs s2 h
    have he : e = none := hok (n, pos, e) (List.mem_cons_self _ _)
    subst he
    obtain ⟨_, _, _, a4, _⟩ := store.Append_ok s p n pos s1 h1
    rw [ih s1 rs1 s2 h2 (fun r hr => hok r (List.mem_cons_of_mem _ hr)), a4, PutUint64_mod,
      List.map_cons, List.flatten_cons, frame, List.append_assoc]

theorem newStore_ok (f : File) (s : store) (h : newStore f = Except.ok s) :
    f.statErr = none ∧ s = { File := f, buf := NewWriter, size := f.data.length % u64 } := by
  unfold newStore File.Stat at h
  rcases hst : f.statErr with _ | e
  · simp only [hst, Except.ok.injEq] at h
    exact ⟨rfl, h.symm⟩
  · simp [hst] at h

/-! ## Reading back -/

theorem frame_length (p : List Byte) : (frame p).length = 8 + p.length := by
  simp [frame, PutUint64_length]

theorem File.ReadAt_ok (f : File) (len off : Nat) (x : List Byte) (hc : f.closed = false)
    (h : (f.data.drop off).take len = x) (hx : x.length = len) : f.ReadAt len off = (x, none) := by
  unfold File.ReadAt
  simp only [hc, h, hx]
  simp

theorem Read_recordAt (s : store) (pos : Nat) (p : List Byte)
    (hopen : s.File.closed = false) (hflush : (s.buf.Flush s.File).1 = none)
    (hrec : recordAt (stream s) pos p) (hp : p.length < u64) :
    (s.Read pos).1 = (p, none) := by
  obtain ⟨g1, _, g3, _, g5⟩ := Writer.Flush_spec s.buf s.File
  rcases hfl : s.buf.Flush s.File with ⟨e, b1, f1⟩
  rw [hfl] at g1 g3 g5 hflush
  simp only at g1 g3 g5 hflush
  subst hflush
  obtain ⟨hnil, _⟩ := g5 rfl
  rw [hnil, List.append_nil] at g1
  obtain ⟨pre, post, hdata, hpre⟩ := hrec
  rw [stream, ← g1] at hdata
  have hc : f1.closed = false := by rw [g3, hopen]
  have hdrop : f1.data.drop pos = PutUint64 p.length ++ (p ++ post) := by
    rw [hdata, ← hpre, frame, List.append_assoc, List.append_assoc, List.drop_left]
  have hhdr : (f1.data.drop pos).take lenWidth = PutUint64 p.length := by
    rw [hdrop, lenWidth, ← PutUint64_length p.length, List.take_left]
  have hdrop2 : f1.data.drop (pos + lenWidth) = p ++ post := by
    rw [← List.drop_drop, hdrop, lenWidth, ← PutUint64_length p.length, List.drop_left]
  have hdec : Uint64 (PutUint64 p.length) = p.length := by
    rw [Uint64_PutUint64, Nat.mod_eq_of_lt hp]
  have hbody : (f1.data.drop (pos + lenWidth)).take p.length = p := by
    rw [hdrop2, List.take_left]
  have hr1 : f1.ReadAt lenWidth pos = (PutUint64 p.length, none) :=
    File.ReadAt_ok f1 _ _ _ hc hhdr rfl
  have hr2 : f1.ReadAt (Uint64 (PutUint64 p.length)) (pos + lenWidth) = (p, none) := by
    rw [hdec]
    exact File.ReadAt_ok f1 _ _ _ hc hbody rfl
  simp only [store.Read, hfl, hr1, hr2]

/-! ## Writing with and without room in the buffer -/

theorem Writer.Write_fits (b : Writer) (f : File) (p : List Byte) (herr : b.err = none)
    (hfit : b.buf.length + p.length ≤ b.cap) :
    b.Write f p = some (p.length, none, { b with buf := b.buf ++ p }, f) := by
  have hg : ¬ (p.length > b.Available ∧ b.err = none) := by
    simp only [Writer.Available]
    omega
  have hmin : min b.Available p.length = p.length := by
    simp only [Writer.Available]
    omega
  unfold Writer.Write writeFuel
  rw [Writer.writeLoop_done 2 b f p 0 hg]
  simp only [herr, hmin, List.take_length, Nat.zero_add]

theorem Writer.Write_on_closed (b : Writer) (f : File) (p : List Byte) (herr : b.err = none)
    (hclosed : f.closed = true) (hwf : b.buf.length ≤ b.cap)
    (hbig : b.cap < b.buf.length + p.length) :
    ∃ nn b1, b.Write f p = some (nn, some Error.ErrClosed, b1, f) := by
  have hg : p.length > b.Available ∧ b.err = none := by
    simp only [Writer.Available]
    exact ⟨by omega, herr⟩
  unfold Writer.Write writeFuel
  by_cases h0 : b.Buffered = 0
  · rw [Writer.writeLoop]
    simp only [if_pos hg, if_pos h0, File.Write_closed f p hclosed]
    rw [Writer.writeLoop_done 1 _ f _ _ (by simp)]
    exact ⟨_, _, rfl⟩
  · rw [Writer.writeLoop]
    simp only [if_pos hg, if_neg h0]
    have hne : b.buf ≠ [] := by
      intro hc
      apply h0
      rw [Writer.Buffered, hc]
      rfl
    have hfl : Writer.Flush { b with buf := b.buf ++ p.take (min b.Available p.length) } f =
        (some Error.ErrClosed,
          { err := some Error.ErrClosed, buf := b.buf ++ p.take (min b.Available p.length),
            cap := b.cap }, f) := by
      simp [Writer.Flush, herr, Writer.Buffered, File.Write_closed f _ hclosed, hne]
    rw [hfl]
    simp only
    rw [Writer.writeLoop_done 1 _ f _ _ (by simp)]
    exact ⟨_, _, rfl⟩

theorem store.Append_fits (t : store) (p : List Byte) (herr : t.buf.err = none)
    (hfit : t.buf.buf.length + (8 + p.length) ≤ t.buf.cap) :
    t.Append p = some (((p.length + 8) % u64, t.size, none),
      { File := t.File,
        buf := { err := t.buf.err, buf := t.buf.buf ++ PutUint64 (p.length % u64) ++ p,
                 cap := t.buf.cap },
        size := (t.size + (p.length + 8) % u64) % u64 }) := by
  have hw1 := Writer.Write_fits t.buf t.File (PutUint64 (p.length % u64)) herr
    (by rw [PutUint64_length]; omega)
  have hw2 := Writer.Write_fits
    { err := t.buf.err, buf := t.buf.buf ++ PutUint64 (p.length % u64), cap := t.buf.cap }
    t.File p herr (by simp only [List.length_append, PutUint64_length]; omega)
  unfold store.Append binaryWrite
  rw [hw1]
  simp only [hw2, lenWidth]

theorem store.Append_on_closed (t : store) (p : List Byte) (herr : t.buf.err = none)
    (hclosed : t.File.closed = true) (hwf : t.buf.buf.length ≤ t.buf.cap)
    (hbig : t.buf.cap < t.buf.buf.length + (8 + p.length)) :
    ∃ s2, t.Append p = some ((0, 0, some Error.ErrClosed), s2) ∧ s2.size = t.size ∧
      s2.File = t.File := by
  by_cases h8 : t.buf.cap < t.buf.buf.length + 8
  · obtain ⟨nn, b1, hw⟩ := Writer.Write_on_closed t.buf t.File (PutUint64 (p.length % u64)) herr
      hclosed hwf (by rw [PutUint64_length]; exact h8)
    refine ⟨{ t with buf := b1, File := t.File }, ?_, rfl, rfl⟩
    unfold store.Append binaryWrite
    rw [hw]
  · have hw1 := Writer.Write_fits t.buf t.File (PutUint64 (p.length % u64)) herr
      (by rw [PutUint64_length]; omega)
    obtain ⟨nn, b1, hw⟩ := Writer.Write_on_closed
      { err := t.buf.err, buf := t.buf.buf ++ PutUint64 (p.length % u64), cap := t.buf.cap }
      t.File p herr hclosed (by simp only [List.length_append, PutUint64_length]; omega)
      (by simp only [List.length_append, PutUint64_length]; omega)
    refine ⟨{ t with buf := b1, File := t.File }, ?_, rfl, rfl⟩
    unfold store.Append binaryWrite
    rw [hw1]
    simp only [hw]

/-! ## Invariants of a series of appends -/

theorem appends_grows (ps : List (List Byte)) : ∀ (s : store) rs s2,
    appends s ps = some (rs, s2) → ∃ t, stream s2 = stream s ++ t := by
  induction ps with
  | nil =>
    intro s rs s2 h
    simp only [appends, Option.some.injEq, Prod.mk.injEq] at h
    exact ⟨[], by rw [h.2, List.append_nil]⟩
  | cons p ps ih =>
    intro s rs s2 h
    obtain ⟨⟨n, pos, e⟩, s1, rs1, h1, h2, rfl⟩ := appends_cons s p ps rs s2 h
    obtain ⟨t2, ht2⟩ := ih s1 rs1 s2 h2
    rcases e with _ | e
    · obtain ⟨_, _, _, a4, _⟩ := store.Append_ok s p n pos s1 h1
      exact ⟨_, by rw [ht2, a4, List.append_assoc]⟩
    · obtain ⟨_, _, _, _, ⟨t, a5, _⟩, _⟩ := store.Append_err s p n pos e s1 h1
      exact ⟨_, by rw [ht2, a5, List.append_assoc]⟩

theorem appends_size_le (ps : List (List Byte)) : ∀ (s : store) rs s2,
    appends s ps = some (rs, s2) → (stream s2).length < u64 →
    s.size ≤ (stream s).length → (s.buf.err = none → s.size = (stream s).length) →
    s2.size ≤ (stream s2).length ∧ (s2.buf.err = none → s2.size = (stream s2).length) := by
  induction ps with
  | nil =>
    intro s rs s2 h _ hle heq
    simp only [appends, Option.some.injEq, Prod.mk.injEq] at h
    obtain ⟨_, rfl⟩ := h
    exact ⟨hle, heq⟩
  | cons p ps ih =>
    intro s rs s2 h hlt hle heq
    obtain ⟨⟨n, pos, e⟩, s1, rs1, h1, h2, rfl⟩ := appends_cons s p ps rs s2 h
    obtain ⟨t2, ht2⟩ := appends_grows ps s1 rs1 s2 h2
    have hl2 : (stream s1).length ≤ (stream s2).length := by
      rw [ht2, List.length_append]; omega
    rcases e with _ | e
    · obtain ⟨_, _, a3, a4, a5, _⟩ := store.Append_ok s p n pos s1 h1
      have hlen1 : (stream s1).length = (stream s).length + (8 + p.length) := by
        rw [a4]; simp [PutUint64_length]
      have hs1 : s1.size = (stream s1).length := by
        rw [a3, hlen1, heq a5, Nat.mod_eq_of_lt (a := p.length + 8) (by omega),
          Nat.mod_eq_of_lt (by omega)]
        omega
      exact ih s1 rs1 s2 h2 hlt (Nat.le_of_eq hs1) (fun _ => hs1)
    · obtain ⟨_, _, a3, a4, ⟨t, a5, _⟩, _⟩ := store.Append_err s p n pos e s1 h1
      have hlen1 : (stream s).length ≤ (stream s1).length := by
        rw [a5, List.length_append]; omega
      exact ih s1 rs1 s2 h2 hlt (by rw [a3]; omega) (fun hc => by rw [a4] at hc; simp at hc)

theorem appends_no_error (ps : List (List Byte)) : ∀ (s : store) rs s2,
    appends s ps = some (rs, s2) → (∀ r ∈ rs, r.2.2 = none) → s.buf.err = none →
    s2.buf.err = none := by
  induction ps with
  | nil =>
    intro s rs s2 h _ he
    simp only [appends, Option.some.injEq, Prod.mk.injEq] at h
    rw [← h.2]
    exact he
  | cons p ps ih =>
    intro s rs s2 h hok _
    obtain ⟨⟨n, pos, e⟩, s1, rs1, h1, h2, rfl⟩ := appends_cons s p ps rs s2 h
    have he : e = none := hok (n, pos, e) (List.mem_cons_self _ _)
    subst he
    obtain ⟨_, _, _, _, _, a6, _⟩ := store.Append_ok s p n pos s1 h1
    exact ih s1 rs1 s2 h2 (fun r hr => hok r (List.mem_cons_of_mem _ hr)) a6

theorem offsets_mem (ps : List (List Byte)) : ∀ (start : Nat) (r : Nat × Nat × Option Error),
    r ∈ offsets start ps → start ≤ r.2.1 ∧ 8 ≤ r.1 := by
  induction ps with
  | nil => intro start r h; simp [offsets] at h
  | cons p ps ih =>
    intro start r h
    simp only [offsets, List.mem_cons] at h
    rcases h with rfl | h
    · exact ⟨Nat.le_refl _, Nat.le_add_right _ _⟩
    · obtain ⟨h1, h2⟩ := ih _ r h
      exact ⟨by omega, h2⟩

theorem offsets_pairwise (ps : List (List Byte)) : ∀ (start : Nat),
    (offsets start ps).Pairwise (fun a b => a.2.1 + a.1 ≤ b.2.1) := by
  induction ps with
  | nil => intro start; simp [offsets]
  | cons p ps ih =>
    intro start
    simp only [offsets, List.pairwise_cons]
    refine ⟨fun b hb => ?_, ih _⟩
    have := (offsets_mem ps _ b hb).1
    omega

theorem offsets_sum (ps : List (List Byte)) : ∀ (start : Nat),
    ((offsets start ps).map (fun r => r.1)).sum = (ps.map (fun p => 8 + p.length)).sum := by
  induction ps with
  | nil => intro start; simp [offsets]
  | cons p ps ih =>
    intro start
    simp only [offsets, List.map_cons, List.sum_cons, ih]

theorem appends_recordAt (ps : List (List Byte)) : ∀ (s : store) rs s2,
    appends s ps = some (rs, s2) → (∀ r ∈ rs, r.2.2 = none) →
    s.size = (stream s).length →
    (stream s).length + (ps.map (fun p => 8 + p.length)).sum < u64 →
    ∀ (i : Nat) (hi : i < ps.length) (hr : i < rs.length),
      recordAt (stream s2) (rs[i]).2.1 ps[i] := by
  induction ps with
  | nil => intro s rs s2 _ _ _ _ i hi; simp at hi
  | cons p ps ih =>
    intro s rs s2 h hok hsz hb i hi hr
    obtain ⟨⟨n, pos, e⟩, s1, rs1, h1, h2, rfl⟩ := appends_cons s p ps rs s2 h
    have he : e = none := hok (n, pos, e) (List.mem_cons_self _ _)
    subst he
    have hok1 : ∀ r ∈ rs1, r.2.2 = none := fun r hr => hok r (List.mem_cons_of_mem _ hr)
    obtain ⟨_, a2, a3, a4, _⟩ := store.Append_ok s p n pos s1 h1
    simp only [List.map_cons, List.sum_cons] at hb
    have hlen1 : (stream s1).length = (stream s).length + (8 + p.length) := by
      rw [a4]; simp [PutUint64_length]
    have hs1 : s1.size = (stream s1).length := by
      rw [a3, hlen1, hsz, Nat.mod_eq_of_lt (a := p.length + 8) (by omega),
        Nat.mod_eq_of_lt (by omega)]
      omega
    cases i with
    | zero =>
      refine ⟨stream s, (ps.map frame).flatten, ?_, ?_⟩
      · rw [appends_stream ps s1 rs1 s2 h2 hok1, a4, PutUint64_mod, frame]
        rfl
      · simp only [List.getElem_cons_zero]
        rw [a2, hsz]
    | succ j =>
      simp only [List.getElem_cons_succ]
      exact ih s1 rs1 s2 h2 hok1 hs1 (by rw [hlen1]; omega) j
        (by simpa using hi) (by simpa using hr)

/-! # The claims -/

/-- C1: a successful `Append(p)` returns position = the size before the
call, bytesWritten = `8 + len(p)` (for a payload within Go's slice length
limit of `2^63 - 1`) and a nil error; over any empty file that can be
stat'ed, `Append([1,2,3])` on the new store returns `(11, 0, nil)`; and a
successful `Append` of the empty payload returns `(8, size, nil)`. -/
theorem C1_append_returns :
    (∀ (s : store) (p : List Byte) (n pos : Nat) (s1 : store),
        p.length < 2 ^ 63 → s.Append p = some ((n, pos, none), s1) →
        pos = s.size ∧ n = 8 + p.length) ∧
    (∀ f : File, f.data = [] → f.statErr = none →
        ∃ s s1, newStore f = Except.ok s ∧ s.Append [1, 2, 3] = some ((11, 0, none), s1)) ∧
    (∀ (s : store) (n pos : Nat) (s1 : store),
        s.Append [] = some ((n, pos, none), s1) → n = 8 ∧ pos = s.size) := by
  refine ⟨?_, ?_, ?_⟩
  · intro s p n pos s1 hp h
    obtain ⟨a1, a2, _⟩ := store.Append_ok s p n pos s1 h
    refine ⟨a2, ?_⟩
    rw [a1, u64, Nat.mod_eq_of_lt (by omega)]
    omega
  · rintro ⟨data, closed, statErr, faults⟩ hd hs
    simp only at hd hs
    subst hd hs
    exact ⟨_, _, rfl, rfl⟩
  · intro s n pos s1 h
    obtain ⟨a1, a2, _⟩ := store.Append_ok s [] n pos s1 h
    exact ⟨by rw [a1]; rfl, a2⟩

/-- C1, at the store over `emptyFile` and the payload `[1,2,3]`. -/
theorem C1_append_returns_witness :
    store0.Append [1, 2, 3] = some ((11, 0, none), store1) ∧ 0 = store0.size ∧ 11 = 8 + 3 :=
  ⟨by decide, C1_append_returns.1 store0 [1, 2, 3] 11 0 store1 (by decide) (by decide)⟩

/-- C2: after a store is built over a file of length `s0` and the payloads
`p1..pk` are all appended successfully, its size is
`s0 + Σ (8 + len(p_i))`, as long as that total is below `2^64`; and one
successful `Append(p)` moves size from `s` to `s + 8 + len(p)`. -/
theorem C2_size_after_appends (f : File) (s : store) (ps : List (List Byte))
    (rs : List (Nat × Nat × Option Error)) (s2 : store)
    (hnew : newStore f = Except.ok s)
    (hrun : appends s ps = some (rs, s2))
    (hok : ∀ r ∈ rs, r.2.2 = none)
    (hlt : f.data.length + (ps.map (fun p => 8 + p.length)).sum < 2 ^ 64) :
    s2.size = f.data.length + (ps.map (fun p => 8 + p.length)).sum ∧
    (∀ (t : store) (p : List Byte) (n pos : Nat) (t1 : store),
      t.Append p = some ((n, pos, none), t1) → t.size + (8 + p.length) < 2 ^ 64 →
      t1.size = t.size + (8 + p.length)) := by
  have hs : s.size = f.data.length := by
    rw [(newStore_ok f s hnew).2]
    exact Nat.mod_eq_of_lt (by rw [u64]; omega)
  constructor
  · have := (appends_ok ps s rs s2 hrun hok (by rw [hs, u64]; exact hlt)).1
    rw [this, hs]
  · intro t p n pos t1 h hb
    obtain ⟨_, _, a3, _⟩ := store.Append_ok t p n pos t1 h
    rw [a3, u64, Nat.mod_eq_of_lt (by omega), Nat.mod_eq_of_lt (by omega)]
    omega

/-- C2, at the store over `emptyFile` and the payloads `[1,2,3]`, `[]`. -/
theorem C2_size_after_appends_witness :
    store2.size = 0 + (8 + 3 + (8 + 0 + 0)) :=
  (C2_size_after_appends emptyFile store0 [[1, 2, 3], []]
    [(11, 0, none), (8, 11, none)] store2 rfl (by decide) (by decide) (by decide)).1

/-- C3: a successful `Append(p)` adds to the stream (file bytes, then
buffered bytes) exactly the 8 bytes `byte(len >> 56), ..., byte(len)`
followed by `p`; so after successful appends of `p1..pk` on a store over an
empty file the stream is `frame(p1) ++ ... ++ frame(pk)` and nothing
else. -/
theorem C3_stream_is_frames :
    (∀ (s : store) (p : List Byte) (n pos : Nat) (s1 : store),
        s.Append p = some ((n, pos, none), s1) →
        stream s1 = stream s ++
          ([byteAt p.length 56, byteAt p.length 48, byteAt p.length 40, byteAt p.length 32,
            byteAt p.length 24, byteAt p.length 16, byteAt p.length 8, byteAt p.length 0] ++ p)) ∧
    (∀ (f : File) (s : store) (ps : List (List Byte)) (rs : List (Nat × Nat × Option Error))
        (s2 : store),
        f.data = [] → newStore f = Except.ok s → appends s ps = some (rs, s2) →
        (∀ r ∈ rs, r.2.2 = none) →
        stream s2 = (ps.map frame).flatten) := by
  constructor
  · intro s p n pos s1 h
    obtain ⟨_, _, _, a4, _⟩ := store.Append_ok s p n pos s1 h
    rw [a4, PutUint64_mod]
    rfl
  · intro f s ps rs s2 hd hnew hrun hok
    obtain ⟨_, rfl⟩ := newStore_ok f s hnew
    rw [appends_stream ps _ rs s2 hrun hok]
    simp [stream, hd, NewWriter]

/-- C3, at the store over `emptyFile` and the payload `[1,2,3]`. -/
theorem C3_stream_is_frames_witness :
    stream store1 = stream store0 ++ ([0, 0, 0, 0, 0, 0, 0, 3] ++ [1, 2, 3]) :=
  C3_stream_is_frames.1 store0 [1, 2, 3] 11 0 store1 (by decide)


/-- C4: after a store is built over an open file and `p1..pk` are appended
successfully (total below `2^64`), `Read(pos_i)` on the final state, whose
flush of the buffer the device accepts, returns exactly `p_i` and no error,
for every `i`, whatever was appended after `p_i`; the empty payload
included.  `Read` is the operation of the spec: flush, read 8 bytes at the
position as a big-endian length `n`, read the next `n` bytes. -/
theorem C4_read_returns_payload (f : File) (s : store) (ps : List (List Byte))
    (rs : List (Nat × Nat × Option Error)) (s2 : store)
    (hnew : newStore f = Except.ok s) (hopen : f.closed = false)
    (hrun : appends s ps = some (rs, s2))
    (hok : ∀ r ∈ rs, r.2.2 = none)
    (hlt : f.data.length + (ps.map (fun p => 8 + p.length)).sum < 2 ^ 64)
    (hflush : (s2.buf.Flush s2.File).1 = none)
    (i : Nat) (hi : i < ps.length) (hr : i < rs.length) :
    (s2.Read (rs[i]).2.1).1 = (ps[i], none) := by
  obtain ⟨_, rfl⟩ := newStore_ok f s hnew
  have hstream : stream { File := f, buf := NewWriter, size := f.data.length % u64 } = f.data := by
    simp [stream, NewWriter]
  have hb : f.data.length + (ps.map (fun p => 8 + p.length)).sum < u64 := hlt
  have hsz : f.data.length % u64 = f.data.length := Nat.mod_eq_of_lt (by omega)
  have hrec := appends_recordAt ps _ rs s2 hrun hok (by rw [hstream]; exact hsz)
    (by rw [hstream]; exact hb) i hi hr
  have hclosed : s2.File.closed = false := by
    have := (appends_ok ps _ rs s2 hrun hok (by simpa only [hsz] using hb)).2.2.2.2.2
    rw [this]
    exact hopen
  refine Read_recordAt s2 _ _ hclosed hflush hrec ?_
  have hmem : 8 + (ps[i]).length ≤ (ps.map (fun p => 8 + p.length)).sum :=
    List.single_le_sum (by intro x _; exact Nat.zero_le x) _
      (List.mem_map.mpr ⟨ps[i], List.getElem_mem hi, rfl⟩)
  omega

/-- C4, at the store over `emptyFile` after `Append([1,2,3])` and
`Append([])`: reading at the first position gives `[1,2,3]`. -/
theorem C4_read_returns_payload_witness : (store2.Read 0).1 = ([1, 2, 3], none) :=
  C4_read_returns_payload emptyFile store0 [[1, 2, 3], []] [(11, 0, none), (8, 11, none)] store2
    rfl rfl (by decide) (by decide) (by decide) (by decide) 0 (by decide) (by decide)

/-- C5: if `Append(p)` fails, whether at the length prefix or at the
payload, the size after the call is the size before it. -/
theorem C5_failed_append_keeps_size (s : store) (p : List Byte) (n pos : Nat) (e : Error)
    (s1 : store) (h : s.Append p = some ((n, pos, some e), s1)) :
    s1.size = s.size :=
  (store.Append_err s p n pos e s1 h).2.2.1

/-- C5, at the store over a file whose first write is cut short after 8
bytes, with a payload of 4089 bytes. -/
theorem C5_failed_append_keeps_size_witness : storeF1.size = storeF0.size :=
  C5_failed_append_keeps_size storeF0 bigPayload 0 0 (Error.Errno 28) storeF1 (by decide!)

/-- C6 fails on the code.  On the store over `faultyFile`, `Append` of the
4089-byte payload buffers the length prefix, then fails when the payload
forces a flush that the device cuts short after 8 bytes: the call returns an
error, yet the prefix is now in the file with no payload after it, 4088
payload bytes sit in the buffer, and the retry fails although the device no
longer reports any fault, while on the untouched store over the same
device (`store0`) the same call succeeds. -/
theorem C6_counterexample :
    storeF0.Append bigPayload = some ((0, 0, some (Error.Errno 28)), storeF1) ∧
    storeF0.File.data = [] ∧ storeF1.File.data = PutUint64 4089 ∧
    storeF0.buf.buf = [] ∧ storeF1.buf.buf = List.replicate 4088 0 ∧
    storeF1.File.faults = [] ∧
    storeF1.Append bigPayload = some ((0, 0, some (Error.Errno 28)), storeF1) ∧
    { storeF0 with File := { storeF0.File with faults := [] } } = store0 ∧
    (store0.Append bigPayload).map (fun r => r.1) = some (4097, 0, none) := by
  refine ⟨by decide!, rfl, rfl, rfl, rfl, rfl, by decide!, rfl, by decide!⟩

/-- C6 as amended: a failed `Append(p)` leaves size unchanged and leaves
every byte already in the stream in place, adding after them only some
initial part of the record of `p`; the writer keeps the error, so every
later `Append`, a retry of `p` included, fails with that same error and
changes nothing. -/
theorem C6_failed_append_effect (s : store) (p : List Byte) (n pos : Nat) (e : Error)
    (s1 : store) (h : s.Append p = some ((n, pos, some e), s1)) :
    s1.size = s.size ∧
    (∃ t, stream s1 = stream s ++ t ∧ t <+: frame p) ∧
    ∀ q : List Byte, s1.Append q = some ((0, 0, some e), s1) := by
  obtain ⟨_, _, a3, a4, ⟨t, a5, a6⟩, _⟩ := store.Append_err s p n pos e s1 h
  refine ⟨a3, ⟨t, a5, ?_⟩, fun q => store.Append_sticky s1 q e a4⟩
  rw [PutUint64_mod] at a6
  exact a6

/-- C6 as amended, at the failed append of `C6_counterexample`. -/
theorem C6_failed_append_effect_witness :
    storeF1.size = storeF0.size ∧
    (∃ t, stream storeF1 = stream storeF0 ++ t ∧ t <+: frame bigPayload) ∧
    ∀ q : List Byte, storeF1.Append q = some ((0, 0, some (Error.Errno 28)), storeF1) :=
  C6_failed_append_effect storeF0 bigPayload 0 0 (Error.Errno 28) storeF1 (by decide!)

/-- C7 fails on the code.  `newStore` over `faultyFile` followed by the
failed `Append` of the 4089-byte payload reaches a state whose size is 0
while the file holds 8 bytes and the buffer 4088. -/
theorem C7_counterexample :
    newStore faultyFile = Except.ok storeF0 ∧
    appends storeF0 [bigPayload] = some ([(0, 0, some (Error.Errno 28))], storeF1) ∧
    storeF1.size = 0 ∧ storeF1.File.data.length = 8 ∧ storeF1.buf.buf.length = 4088 := by
  refine ⟨rfl, by decide!, rfl, rfl, by decide!⟩

/-- C7 as amended: in every state reachable from a successful `newStore` by
`Append` calls, with the flushed length below `2^64`, size is at most the
number of bytes in the file plus the number of bytes in the buffer, and
equals it when no `Append` has failed. -/
theorem C7_size_tracks_stream (f : File) (s : store) (ps : List (List Byte))
    (rs : List (Nat × Nat × Option Error)) (s2 : store)
    (hnew : newStore f = Except.ok s)
    (hrun : appends s ps = some (rs, s2))
    (hlt : s2.File.data.length + s2.buf.buf.length < 2 ^ 64) :
    s2.size ≤ s2.File.data.length + s2.buf.buf.length ∧
    ((∀ r ∈ rs, r.2.2 = none) → s2.size = s2.File.data.length + s2.buf.buf.length) := by
  obtain ⟨_, rfl⟩ := newStore_ok f s hnew
  have hlen : (stream s2).length = s2.File.data.length + s2.buf.buf.length := by
    simp [stream]
  obtain ⟨t, ht⟩ := appends_grows ps _ rs s2 hrun
  have hstream : stream { File := f, buf := NewWriter, size := f.data.length % u64 } = f.data := by
    simp [stream, NewWriter]
  rw [hstream] at ht
  have hfl : f.data.length ≤ (stream s2).length := by
    rw [ht, List.length_append]; omega
  have hb : (stream s2).length < u64 := by rw [hlen]; exact hlt
  have hsz : f.data.length % u64 = f.data.length := Nat.mod_eq_of_lt (by omega)
  obtain ⟨i1, i2⟩ := appends_size_le ps _ rs s2 hrun hb
    (by rw [hstream]; exact Nat.le_of_eq hsz) (fun _ => by rw [hstream]; exact hsz)
  rw [hlen] at i1 i2
  exact ⟨i1, fun hok => i2 (appends_no_error ps _ rs s2 hrun hok rfl)⟩

/-- C7 as amended, at the store over `emptyFile` after `Append([1,2,3])`
and `Append([])`. -/
theorem C7_size_tracks_stream_witness :
    store2.size ≤ store2.File.data.length + store2.buf.buf.length ∧
    ((∀ r ∈ [((11 : Nat), (0 : Nat), (none : Option Error)), (8, 11, none)], r.2.2 = none) →
      store2.size = store2.File.data.length + store2.buf.buf.length) :=
  C7_size_tracks_stream emptyFile store0 [[1, 2, 3], []] [(11, 0, none), (8, 11, none)] store2
    rfl (by decide) (by decide)

/-- C8: `newStore(f)` returns the error `e` and no store exactly when the
stat of the file fails with `e`; otherwise it returns a store on `f` whose
size is the file's byte length and whose buffer is empty: over a file made
of the records of `p1..pN` the size is `Σ (8 + len(p_i))`, over an empty
file it is 0. -/
theorem C8_newStore :
    (∀ (f : File) (e : Error), newStore f = Except.error e ↔ f.statErr = some e) ∧
    (∀ f : File, f.statErr = none → f.data.length < 2 ^ 64 →
      ∃ s, newStore f = Except.ok s ∧ s.size = f.data.length ∧ s.buf.buf = [] ∧
        s.buf.err = none ∧ s.File = f) ∧
    (∀ (f : File) (ps : List (List Byte)), f.statErr = none →
      f.data = (ps.map frame).flatten → f.data.length < 2 ^ 64 →
      ∃ s, newStore f = Except.ok s ∧ s.size = (ps.map (fun p => 8 + p.length)).sum) ∧
    (∀ f : File, f.statErr = none → f.data = [] →
      ∃ s, newStore f = Except.ok s ∧ s.size = 0) := by
  have hframes : ∀ ps : List (List Byte),
      ((ps.map frame).flatten).length = (ps.map (fun p => 8 + p.length)).sum := by
    intro ps
    induction ps with
    | nil => rfl
    | cons p ps ih =>
      simp only [List.map_cons, List.flatten_cons, List.length_append, List.sum_cons, ih,
        frame_length]
  refine ⟨?_, ?_, ?_, ?_⟩
  · intro f e
    unfold newStore File.Stat
    rcases f.statErr with _ | e1 <;> simp
  · intro f hs hl
    refine ⟨{ File := f, buf := NewWriter, size := f.data.length % u64 }, ?_, ?_, rfl, rfl, rfl⟩
    · simp [newStore, File.Stat, hs]
    · exact Nat.mod_eq_of_lt hl
  · intro f ps hs hd hl
    refine ⟨{ File := f, buf := NewWriter, size := f.data.length % u64 }, ?_, ?_⟩
    · simp [newStore, File.Stat, hs]
    · show f.data.length % u64 = _
      rw [Nat.mod_eq_of_lt (by rw [u64]; exact hl), hd, hframes]
  · intro f hs hd
    refine ⟨{ File := f, buf := NewWriter, size := f.data.length % u64 }, ?_, ?_⟩
    · simp [newStore, File.Stat, hs]
    · show f.data.length % u64 = 0
      rw [hd]
      rfl

/-- C8, at a file holding the records of `[1,2,3]` and `[]`. -/
theorem C8_newStore_witness :
    ∃ s, newStore { emptyFile with data := frame [1, 2, 3] ++ frame [] } = Except.ok s ∧
      s.size = 8 + 3 + (8 + 0 + 0) :=
  C8_newStore.2.2.1 { emptyFile with data := frame [1, 2, 3] ++ frame [] } [[1, 2, 3], []]
    rfl (by decide) (by decide)

/-- C9: for a series of successful `Append` calls on one store, taken one
after the other, with size staying below `2^64`: the positions returned are
pairwise distinct, the byte ranges `[pos_i, pos_i + n_i)` are pairwise
disjoint, and the byte counts `n_i` add up to the growth of size. -/
theorem C9_positions_disjoint (s : store) (ps : List (List Byte))
    (rs : List (Nat × Nat × Option Error)) (s2 : store)
    (hrun : appends s ps = some (rs, s2))
    (hok : ∀ r ∈ rs, r.2.2 = none)
    (hlt : s.size + (ps.map (fun p => 8 + p.length)).sum < 2 ^ 64) :
    (∀ (i j : Nat) (hi : i < rs.length) (hj : j < rs.length), i ≠ j →
      (rs[i]).2.1 ≠ (rs[j]).2.1 ∧
      ((rs[i]).2.1 + (rs[i]).1 ≤ (rs[j]).2.1 ∨ (rs[j]).2.1 + (rs[j]).1 ≤ (rs[i]).2.1)) ∧
    s.size + (rs.map (fun r => r.1)).sum = s2.size := by
  obtain ⟨a1, a2, _⟩ := appends_ok ps s rs s2 hrun hok hlt
  constructor
  · have hpw : rs.Pairwise (fun a b => a.2.1 + a.1 ≤ b.2.1) := by
      rw [a2]; exact offsets_pairwise ps s.size
    have hn : ∀ r ∈ rs, 8 ≤ r.1 := fun r hr => (offsets_mem ps s.size r (by rw [← a2]; exact hr)).2
    rw [List.pairwise_iff_getElem] at hpw
    intro i j hi hj hij
    have hni := hn rs[i] (List.getElem_mem hi)
    have hnj := hn rs[j] (List.getElem_mem hj)
    rcases Nat.lt_or_gt_of_ne hij with hlt1 | hgt1
    · have := hpw i j hi hj hlt1
      exact ⟨by omega, Or.inl this⟩
    · have := hpw j i hj hi hgt1
      exact ⟨by omega, Or.inr this⟩
  · rw [a1, a2, offsets_sum]

/-- C9, at the store over `emptyFile` with the payloads `[1,2,3]`, `[]`. -/
theorem C9_positions_disjoint_witness :
    (∀ (i j : Nat) (hi : i < [((11 : Nat), (0 : Nat), (none : Option Error)), (8, 11, none)].length)
        (hj : j < [((11 : Nat), (0 : Nat), (none : Option Error)), (8, 11, none)].length), i ≠ j →
      ([((11 : Nat), (0 : Nat), (none : Option Error)), (8, 11, none)][i]).2.1 ≠
        ([((11 : Nat), (0 : Nat), (none : Option Error)), (8, 11, none)][j]).2.1 ∧
      (([((11 : Nat), (0 : Nat), (none : Option Error)), (8, 11, none)][i]).2.1 +
          ([((11 : Nat), (0 : Nat), (none : Option Error)), (8, 11, none)][i]).1 ≤
          ([((11 : Nat), (0 : Nat), (none : Option Error)), (8, 11, none)][j]).2.1 ∨
        ([((11 : Nat), (0 : Nat), (none : Option Error)), (8, 11, none)][j]).2.1 +
          ([((11 : Nat), (0 : Nat), (none : Option Error)), (8, 11, none)][j]).1 ≤
          ([((11 : Nat), (0 : Nat), (none : Option Error)), (8, 11, none)][i]).2.1)) ∧
    store0.size + 19 = store2.size :=
  C9_positions_disjoint store0 [[1, 2, 3], []] [(11, 0, none), (8, 11, none)] store2
    (by decide) (by decide) (by decide)

/-- C10 fails on the code.  `Close` on the new store over `emptyFile`
succeeds, and the `Append([1,2,3])` that follows returns `(11, 0, nil)` and
moves size to 11: the record fits in the buffer, so the closed handle is
never touched.  And `Close` after `Append([1,2,3])` leaves the file empty:
the 11 bytes of the record stay in the buffer. -/
theorem C10_counterexample :
    store0.Close = (none, storeC0) ∧
    storeC0.Append [1, 2, 3] = some ((11, 0, none), storeC1) ∧
    storeC0.size = 0 ∧ storeC1.size = 11 ∧
    store0.Append [1, 2, 3] = some ((11, 0, none), store1) ∧
    (store1.Close).1 = none ∧ (store1.Close).2.File.data = [] ∧
    (store1.Close).2.buf.buf = frame [1, 2, 3] := by
  decide

/-- C10 as amended: `Close` on a store is the `Close` of the embedded file;
it marks the handle closed and leaves the file's bytes, the buffer and size
as they were, without a flush.  On a store whose writer holds no error and
has the default capacity, an `Append(p)` after `Close` succeeds, returning
`(8 + len(p), size, nil)`, when the record still fits in the buffer next to
the bytes already there; otherwise it fails with the closed-file error and
leaves size unchanged. -/
theorem C10_append_after_close (s : store) (p : List Byte)
    (herr : s.buf.err = none) (hcap : s.buf.cap = defaultBufSize)
    (hwf : s.buf.buf.length ≤ s.buf.cap) :
    (s.Close).2.File.closed = true ∧ (s.Close).2.File.data = s.File.data ∧
    (s.Close).2.buf = s.buf ∧ (s.Close).2.size = s.size ∧
    (s.buf.buf.length + (8 + p.length) ≤ defaultBufSize → s.size + (8 + p.length) < 2 ^ 64 →
      ∃ s2, (s.Close).2.Append p = some ((8 + p.length, s.size, none), s2) ∧
        s2.size = s.size + (8 + p.length) ∧ s2.File.data = s.File.data) ∧
    (defaultBufSize < s.buf.buf.length + (8 + p.length) →
      ∃ s2, (s.Close).2.Append p = some ((0, 0, some Error.ErrClosed), s2) ∧
        s2.size = s.size ∧ s2.File.data = s.File.data) := by
  have hclose : (s.Close).2.File.closed = true ∧ (s.Close).2.File.data = s.File.data ∧
      (s.Close).2.buf = s.buf ∧ (s.Close).2.size = s.size := by
    unfold store.Close File.Close
    by_cases hc : s.File.closed = true
    · simp [hc]
    · simp [hc]
  obtain ⟨k1, k2, k3, k4⟩ := hclose
  have hdef : defaultBufSize = 4096 := rfl
  refine ⟨k1, k2, k3, k4, ?_, ?_⟩
  · intro hfit hsz
    have hm : (p.length + 8) % u64 = 8 + p.length := by
      rw [u64, Nat.mod_eq_of_lt (by omega)]; omega
    have := store.Append_fits (s.Close).2 p (by rw [k3]; exact herr)
      (by rw [k3, hcap]; exact hfit)
    rw [hm, k4] at this
    exact ⟨_, this, by simp only [u64]; exact Nat.mod_eq_of_lt hsz, k2⟩
  · intro hbig
    obtain ⟨s2, h1, h2, h3⟩ := store.Append_on_closed (s.Close).2 p (by rw [k3]; exact herr) k1
      (by rw [k3]; exact hwf) (by rw [k3, hcap]; exact hbig)
    exact ⟨s2, h1, by rw [h2, k4], by rw [h3, k2]⟩

/-- C10 as amended, at the store over `emptyFile` after `Append([1,2,3])`,
with the payload `[]`. -/
theorem C10_append_after_close_witness :
    (store1.Close).2.File.closed = true ∧ (store1.Close).2.File.data = store1.File.data ∧
    (store1.Close).2.buf = store1.buf ∧ (store1.Close).2.size = store1.size ∧
    (store1.buf.buf.length + (8 + ([] : List Byte).length) ≤ defaultBufSize →
      store1.size + (8 + ([] : List Byte).length) < 2 ^ 64 →
      ∃ s2, (store1.Close).2.Append [] =
          some ((8 + ([] : List Byte).length, store1.size, none), s2) ∧
        s2.size = store1.size + (8 + ([] : List Byte).length) ∧
        s2.File.data = store1.File.data) ∧
    (defaultBufSize < store1.buf.buf.length + (8 + ([] : List Byte).length) →
      ∃ s2, (store1.Close).2.Append [] = some ((0, 0, some Error.ErrClosed), s2) ∧
        s2.size = store1.size ∧ s2.File.data = store1.File.data) :=
  C10_append_after_close store1 [] rfl rfl (by decide)

/-! ## Reading the file past the buffer -/

theorem File.ReadAt_short (f : File) (len off : Nat) (hc : f.closed = false)
    (h0 : 0 < len) (h : f.data.length < off + len) :
    f.ReadAt len off = ((f.data.drop off).take len, some Error.EOF) ∧
    ((f.data.drop off).take len).length < len := by
  have hl : ((f.data.drop off).take len).length < len := by
    rw [List.length_take, List.length_drop]
    omega
  refine ⟨?_, hl⟩
  unfold File.ReadAt
  simp only [hc, Bool.false_eq_true, if_false, if_pos hl]

theorem ReadAt_after_append (s : store) (p : List Byte) (n pos : Nat) (s1 : store)
    (hopen : s.File.closed = false) (hsz : s.size = (stream s).length)
    (hlt : (stream s).length + (8 + p.length) < u64)
    (h : s.Append p = some ((n, pos, none), s1)) :
    (pos + n ≤ s1.File.data.length → s1.ReadAt n pos = (frame p, none)) ∧
    (s1.File.data.length < pos + n →
      s1.ReadAt n pos = (s1.File.data.drop pos, some Error.EOF) ∧
      s1.File.data.drop pos = (frame p).take (s1.File.data.length - pos) ∧
      s1.File.data.length - pos < n) := by
  obtain ⟨a1, a2, _, a4, _, _, _, a8⟩ := store.Append_ok s p n pos s1 h
  have hn : n = 8 + p.length := by
    rw [a1, Nat.mod_eq_of_lt (by omega)]; omega
  have hpos : pos = (stream s).length := by rw [a2, hsz]
  have hc : s1.File.closed = false := by rw [a8, hopen]
  rw [PutUint64_mod] at a4
  have hst : s1.File.data ++ s1.buf.buf = stream s ++ frame p := a4
  have hdrop : (s1.File.data ++ s1.buf.buf).drop pos = frame p := by
    rw [hst, hpos, List.drop_left]
  have hlen : s1.File.data.length + s1.buf.buf.length = pos + n := by
    have := congrArg List.length hst
    simp only [List.length_append, frame_length] at this
    omega
  constructor
  · intro hfl
    have hnil : s1.buf.buf = [] := List.length_eq_zero.mp (by omega)
    rw [hnil, List.append_nil] at hdrop
    refine File.ReadAt_ok s1.File n pos (frame p) hc ?_ (by rw [frame_length, hn])
    rw [hdrop, hn, ← frame_length p, List.take_length]
  · intro hsh
    obtain ⟨r1, _⟩ := File.ReadAt_short s1.File n pos hc (by omega) hsh
    have hpre : s1.File.data.drop pos <+: frame p := by
      rw [← hdrop, List.drop_append_eq_append_drop]
      exact List.prefix_append _ _
    have hdl : (s1.File.data.drop pos).length = s1.File.data.length - pos :=
      List.length_drop _ _
    have htake : (s1.File.data.drop pos).take n = s1.File.data.drop pos :=
      List.take_of_length_le (by rw [hdl]; omega)
    have heq := List.prefix_iff_eq_take.mp hpre
    rw [hdl] at heq
    refine ⟨?_, heq, by omega⟩
    rw [store.ReadAt, r1, htake]

/-! # The claims, continued -/

/-- C11 fails on the code.  After `Append([1,2,3])` on the new store over
`emptyFile` the 11 bytes of the record are in the write buffer and the file
is empty; `ReadAt` of 11 bytes at position 0 goes to the embedded file
without a flush and returns no byte and `io.EOF`. -/
theorem C11_counterexample :
    store0.Append [1, 2, 3] = some ((11, 0, none), store1) ∧
    store1.buf.buf = frame [1, 2, 3] ∧ store1.File.data = [] ∧
    store1.ReadAt 11 0 = ([], some Error.EOF) := by
  decide

/-- C11 as amended: `ReadAt` on a store is the `ReadAt` of the embedded file
and does no flush.  After a successful `Append(p)` returning `(n, pos)` on
a store over an open file whose size is the flushed length (below `2^64`),
`ReadAt` of `n` bytes at `pos` returns the 8-byte big-endian length of `p`
followed by `p` when the whole record has been written through to the file;
while part of it is still in the buffer, it returns `io.EOF` with exactly
the bytes the file holds from `pos` on, which are the first
`len(file) - pos` bytes of the record and fewer than `n`. -/
theorem C11_readAt_sees_file_only (s : store) (p : List Byte) (n pos : Nat) (s1 : store)
    (hopen : s.File.closed = false) (hsz : s.size = s.File.data.length + s.buf.buf.length)
    (hlt : s.size + (8 + p.length) < 2 ^ 64)
    (h : s.Append p = some ((n, pos, none), s1)) :
    (pos + n ≤ s1.File.data.length → s1.ReadAt n pos = (frame p, none)) ∧
    (s1.File.data.length < pos + n →
      s1.ReadAt n pos = (s1.File.data.drop pos, some Error.EOF) ∧
      s1.File.data.drop pos = (frame p).take (s1.File.data.length - pos) ∧
      s1.File.data.length - pos < n) := by
  have hlen : (stream s).length = s.File.data.length + s.buf.buf.length := by
    simp [stream]
  exact ReadAt_after_append s p n pos s1 hopen (by rw [hlen]; exact hsz)
    (by rw [hlen, ← hsz]; exact hlt) h

/-- C11 as amended, at the store over `emptyFile` and the 4089-byte payload:
4096 bytes of the record are in the file and one is in the buffer, and
`ReadAt` of 4097 bytes at 0 returns those 4096 bytes and `io.EOF`. -/
theorem C11_readAt_sees_file_only_witness :
    (0 + 4097 ≤ storeB1.File.data.length → storeB1.ReadAt 4097 0 = (frame bigPayload, none)) ∧
    (storeB1.File.data.length < 0 + 4097 →
      storeB1.ReadAt 4097 0 = (storeB1.File.data.drop 0, some Error.EOF) ∧
      storeB1.File.data.drop 0 = (frame bigPayload).take (storeB1.File.data.length - 0) ∧
      storeB1.File.data.length - 0 < 4097) :=
  C11_readAt_sees_file_only store0 bigPayload 4097 0 storeB1 rfl (by decide) (by decide!)
    (by decide!)

/-- The first branch of `C11_readAt_sees_file_only` does occur: the record
of `hugePayload` passes through the buffer to the file whole, and `ReadAt`
returns it. -/
theorem ReadAt_written_through :
    (store0.Append hugePayload).map
        (fun r => (r.1, r.2.buf.buf, r.2.ReadAt 8193 0 == (frame hugePayload, none))) =
      some ((8193, 0, none), [], true) := by
  decide!

/-- C12: `Append` does not look into the payload.  For two stores of equal
size and two payloads of equal length, successful `Append(p)` and
`Append(q)` return the same `(bytesWritten, position)` and leave the same
size; the bytes they add to the two streams start with the same 8 bytes,
followed by `p` and by `q`, so they differ only at an index `i ≥ 8` with
`p[i-8] ≠ q[i-8]`. -/
theorem C12_append_ignores_content (s t : store) (p q : List Byte) (n m pos pos2 : Nat)
    (s1 t1 : store) (hsize : s.size = t.size) (hlen : p.length = q.length)
    (hp : s.Append p = some ((n, pos, none), s1))
    (hq : t.Append q = some ((m, pos2, none), t1)) :
    n = m ∧ pos = pos2 ∧ s1.size = t1.size ∧
    ∃ hdr : List Byte, hdr.length = 8 ∧
      stream s1 = stream s ++ (hdr ++ p) ∧ stream t1 = stream t ++ (hdr ++ q) ∧
      ∀ i : Nat, (hdr ++ p)[i]? ≠ (hdr ++ q)[i]? → 8 ≤ i ∧ p[i - 8]? ≠ q[i - 8]? := by
  obtain ⟨a1, a2, a3, a4, _⟩ := store.Append_ok s p n pos s1 hp
  obtain ⟨b1, b2, b3, b4, _⟩ := store.Append_ok t q m pos2 t1 hq
  refine ⟨by rw [a1, b1, hlen], by rw [a2, b2, hsize], by rw [a3, b3, hlen, hsize],
    PutUint64 (p.length % u64), PutUint64_length _, a4, by rw [b4, hlen], ?_⟩
  intro i hne
  by_cases hi : i < 8
  · exfalso
    apply hne
    rw [List.getElem?_append_left (by rw [PutUint64_length]; exact hi),
      List.getElem?_append_left (by rw [PutUint64_length]; exact hi)]
  · have h8 : 8 ≤ i := Nat.le_of_not_lt hi
    rw [List.getElem?_append_right (by rw [PutUint64_length]; exact h8),
      List.getElem?_append_right (by rw [PutUint64_length]; exact h8), PutUint64_length] at hne
    exact ⟨h8, hne⟩

/-- C12, at the open store `store0` with `[1,2,3]` and the closed store
`storeC0` with `[4,5,6]`. -/
theorem C12_append_ignores_content_witness :
    (11 : Nat) = 11 ∧ (0 : Nat) = 0 ∧ store1.size = storeC1b.size ∧
    ∃ hdr : List Byte, hdr.length = 8 ∧
      stream store1 = stream store0 ++ (hdr ++ [1, 2, 3]) ∧
      stream storeC1b = stream storeC0 ++ (hdr ++ [4, 5, 6]) ∧
      ∀ i : Nat, (hdr ++ [1, 2, 3])[i]? ≠ (hdr ++ [4, 5, 6])[i]? →
        8 ≤ i ∧ ([1, 2, 3] : List Byte)[i - 8]? ≠ ([4, 5, 6] : List Byte)[i - 8]? :=
  C12_append_ignores_content store0 storeC0 [1, 2, 3] [4, 5, 6] 11 11 0 0 store1 storeC1b
    rfl rfl (by decide) (by decide)

/-- C13: whenever `Append` fails, at the length prefix or at the payload, it
returns bytesWritten 0 and position 0 with the error, whatever the size is.
Position 0 is also what the first successful `Append` on a store over an
empty file returns; and on the store of size 11 reached by
`Append([1,2,3])` and `Close`, the failed `Append` of the 4089-byte payload
returns position 0, not 11. -/
theorem C13_failed_append_returns_zero :
    (∀ (s : store) (p : List Byte) (n pos : Nat) (e : Error) (s1 : store),
      s.Append p = some ((n, pos, some e), s1) → n = 0 ∧ pos = 0) ∧
    (∀ (f : File) (s : store) (p : List Byte) (n pos : Nat) (s1 : store),
      f.data = [] → newStore f = Except.ok s → s.Append p = some ((n, pos, none), s1) →
      pos = 0) ∧
    ((store1.Close).2 = storeC1 ∧ storeC1.size = 11 ∧
      storeC1.Append bigPayload = some ((0, 0, some Error.ErrClosed), storeC2)) := by
  refine ⟨?_, ?_, by decide, rfl, by decide!⟩
  · intro s p n pos e s1 h
    obtain ⟨a1, a2, _⟩ := store.Append_err s p n pos e s1 h
    exact ⟨a1, a2⟩
  · intro f s p n pos s1 hd hnew h
    obtain ⟨_, rfl⟩ := newStore_ok f s hnew
    obtain ⟨_, a2, _⟩ := store.Append_ok _ p n pos s1 h
    rw [a2, hd]
    rfl

/-- C13, at the failed append on `storeC1`. -/
theorem C13_failed_append_returns_zero_witness :
    storeC1.Append bigPayload = some ((0, 0, some Error.ErrClosed), storeC2) ∧
    ((0 : Nat) = 0 ∧ (0 : Nat) = 0) :=
  ⟨by decide!,
    C13_failed_append_returns_zero.1 storeC1 bigPayload 0 0 Error.ErrClosed storeC2 (by decide!)⟩

end Log
